import Mathlib

/-!
Verification development for the MotionBuilder in-betweener core
(`pose_inbetween.py`, `actionscript.py`).

Times are modelled as `Int` (the host time type is a totally ordered
integer-count timestamp); `oneFrame` is the value of one frame
(`FBTime(0,0,0,1)`) and is kept as an explicit parameter.  Model sets are
modelled as `Finset Nat` (model handles are opaque identities).  Vector
components use `ℚ` (exact arithmetic standing for the host float type).
Host SDK rotation primitives (`FBInterpolateRotation`,
`FBQuaternionToRotation`, `FBRotationToQuaternion`) are opaque host calls
and are modelled as parameters of the embedding.
-/

namespace Inbetweener

/-! ## Keyframe locator: embedding of `find_nearest_keyframes` -/

/-- One animation node of an animatable property: the `FCurve` key times in
index order (`node.FCurve.Keys[i].Time`). -/
abbrev KeyList := List Int

/-- An animatable property (`FBPropertyAnimatable`): whether `IsAnimated()`
holds, and the animation nodes of `GetAnimationNode().Nodes`. -/
structure AnimProp where
  isAnimated : Bool
  nodes : List KeyList

/-- The per-model animation data read by `find_nearest_keyframes`:
the `Translation`, `Rotation` and `Scaling` properties. -/
structure FbModel where
  translation : AnimProp
  rotation : AnimProp
  scaling : AnimProp

/-- The Python loop's `mid = (left + right) // 2`, written with
`rightSucc = right + 1` (so it is only meaningful when
`left < rightSucc`). -/
def midIdx (left rightSucc : Nat) : Nat := (left + rightSucc - 1) / 2

/-- The binary-search loop body of `find_nearest_keyframes`
(`pose_inbetween.py` lines 151-178).  `rightSucc` encodes the Python
`right + 1`, so the loop guard `left <= right` becomes `left < rightSucc`.
The `fuel` argument makes the loop structurally recursive; every
iteration strictly shrinks `rightSucc - left`, so any
`fuel ≥ rightSucc - left` gives the loop's exact behaviour (the wrapper
`bsearchKeys` passes exactly that bound). -/
def bsearchGo (keys : List Int) (t : Int) :
    Nat → Nat → Nat → Int → Int → Int × Int
  | 0, _, _, tp, tn => (tp, tn)
  | fuel + 1, left, rightSucc, tp, tn =>
    if left < rightSucc then
      if keys.getD (midIdx left rightSucc) 0 = t then
        (if 1 ≤ midIdx left rightSucc then
            (if tp < keys.getD (midIdx left rightSucc - 1) 0 then
              keys.getD (midIdx left rightSucc - 1) 0
            else tp)
          else tp,
          if midIdx left rightSucc + 1 < keys.length then
            (if keys.getD (midIdx left rightSucc + 1) 0 < tn then
              keys.getD (midIdx left rightSucc + 1) 0
            else tn)
          else tn)
      else if keys.getD (midIdx left rightSucc) 0 < t then
        bsearchGo keys t fuel (midIdx left rightSucc + 1) rightSucc
          (if tp < keys.getD (midIdx left rightSucc) 0 then
            keys.getD (midIdx left rightSucc) 0
          else tp)
          tn
      else
        bsearchGo keys t fuel left (midIdx left rightSucc) tp
          (if keys.getD (midIdx left rightSucc) 0 < tn then
            keys.getD (midIdx left rightSucc) 0
          else tn)
    else (tp, tn)

/-- Binary search of one node's key array, updating the running
previous/next bounds, exactly as the `while left <= right` loop does. -/
def bsearchKeys (keys : List Int) (t : Int) (tp tn : Int) : Int × Int :=
  bsearchGo keys t keys.length 0 keys.length tp tn

/-- Fold one node into the running bracket (one iteration of
`for node in prop.GetAnimationNode().Nodes`). -/
def tightenNode (t : Int) (acc : Int × Int) (keys : KeyList) : Int × Int :=
  bsearchKeys keys t acc.1 acc.2

/-- Embedding of the closure `_update_closest_keyframe`: if the property is
animated, fold all of its nodes into the running bracket. -/
def updateClosestKeyframe (t : Int) (p : AnimProp) (acc : Int × Int) :
    Int × Int :=
  if p.isAnimated then p.nodes.foldl (tightenNode t) acc else acc

/-- The per-model part of the scan loop: translation, rotation and scaling
properties in source order, each guarded by its enable flag. -/
def stepModel (t : Int) (useT useR useS : Bool) (acc : Int × Int)
    (m : FbModel) : Int × Int :=
  let a1 := if useT then updateClosestKeyframe t m.translation acc else acc
  let a2 := if useR then updateClosestKeyframe t m.rotation a1 else a1
  if useS then updateClosestKeyframe t m.scaling a2 else a2

/-- The `for model in models` loop with the early-out break
(`pose_inbetween.py` lines 184-193): after each model, if
`time_previous >= early_out_prev and time_next <= early_out_next`,
stop scanning. -/
def findLoop (t : Int) (useT useR useS : Bool) (eoPrev eoNext : Int) :
    List FbModel → Int × Int → Int × Int
  | [], acc => acc
  | m :: ms, acc =>
    let acc' := stepModel t useT useR useS acc m
    if eoPrev ≤ acc'.1 ∧ acc'.2 ≤ eoNext then acc'
    else findLoop t useT useR useS eoPrev eoNext ms acc'

/-- Embedding of `find_nearest_keyframes`.  The host state is passed
explicitly: `currentTime` is `FBSystem().LocalTime`, `spanStart`/`spanStop`
are the current take's `LocalTimeSpan` bounds, and `oneFrame` is
`FBTime(0,0,0,1)`.  The early-out thresholds are computed, as in the
source, from the initial bounds (the span edges). -/
def findNearestKeyframes (models : List FbModel) (useT useR useS : Bool)
    (currentTime spanStart spanStop oneFrame : Int) : Int × Int :=
  findLoop currentTime useT useR useS
    (spanStart + oneFrame) (spanStop - oneFrame) models (spanStart, spanStop)

/-! ## Specification-side bracket bounds -/

/-- Maximum of `a` and all key times strictly below `t`
(specification-side description of the running previous bound). -/
def tightenPrevSpec (a t : Int) (keys : List Int) : Int :=
  keys.foldl (fun acc k => if k < t then max acc k else acc) a

/-- Minimum of `b` and all key times strictly above `t`
(specification-side description of the running next bound). -/
def tightenNextSpec (b t : Int) (keys : List Int) : Int :=
  keys.foldl (fun acc k => if t < k then min acc k else acc) b

/-- Maximum of `a` and all key times less than or equal to `t`:
the previous bound as the claim literally words it
("maximum key time ≤ t"). -/
def tightenPrevClaim (a t : Int) (keys : List Int) : Int :=
  keys.foldl (fun acc k => if k ≤ t then max acc k else acc) a

/-- The key times of a property that participate in the search:
all of its nodes' keys if it is animated, none otherwise. -/
def joinKeys : List KeyList → List Int
  | [] => []
  | ks :: rest => ks ++ joinKeys rest

/-- Key times contributed by one property. -/
def propKeys (p : AnimProp) : List Int :=
  if p.isAnimated then joinKeys p.nodes else []

/-- Key times contributed by one model under a channel mask. -/
def modelKeys (useT useR useS : Bool) (m : FbModel) : List Int :=
  (if useT then propKeys m.translation else []) ++
    ((if useR then propKeys m.rotation else []) ++
      (if useS then propKeys m.scaling else []))

/-- Key times contributed by a model collection under a channel mask. -/
def modelsKeys (useT useR useS : Bool) : List FbModel → List Int
  | [] => []
  | m :: ms => modelKeys useT useR useS m ++ modelsKeys useT useR useS ms

/-- A key array is time-ordered with no duplicate times (host invariant on
`FCurve` key arrays). -/
def SortedKeys (keys : List Int) : Prop := List.Pairwise (· < ·) keys

/-- All key arrays of a model are time-ordered. -/
def ModelSorted (m : FbModel) : Prop :=
  (∀ ks ∈ m.translation.nodes, SortedKeys ks) ∧
    (∀ ks ∈ m.rotation.nodes, SortedKeys ks) ∧
    ∀ ks ∈ m.scaling.nodes, SortedKeys ks

instance (keys : List Int) : Decidable (SortedKeys keys) := by
  unfold SortedKeys
  infer_instance

instance (m : FbModel) : Decidable (ModelSorted m) := by
  unfold ModelSorted
  infer_instance

/-! ## Scene query adapter: embedding of `get_active_keying_group_models` -/

/-- The downward structure of a keying group, as traversed by the inner
helper `_get_models_from_group`: its sub keying groups and the model ids
owning its properties (properties whose owner is not an `FBModel` are
simply absent). -/
inductive KGTree where
  | node (models : List Nat) (subs : List KGTree)

mutual

/-- Embedding of `_get_models_from_group`: recursively collect the models
of all sub keying groups, then the owners of the group's own properties. -/
def KGTree.flatten : KGTree → List Nat
  | KGTree.node ms subs => KGTree.flattenMany subs ++ ms

/-- `flatten` mapped over a list of groups, concatenated in order. -/
def KGTree.flattenMany : List KGTree → List Nat
  | [] => []
  | g :: gs => KGTree.flatten g ++ KGTree.flattenMany gs

end

/-- A parent keying group as seen from the scan loop: its own downward
tree (flattened in BodyPart mode) and the downward trees of its parent
keying groups (the grandparents of the scanned group). -/
structure ParentGroup where
  tree : KGTree
  grandparents : List KGTree

/-- One entry of `FBSystem().Scene.KeyingGroups`: whether
`IsObjectDependencySelected()` holds, and its parent keying groups. -/
structure SceneKeyingGroup where
  depSelected : Bool
  parents : List ParentGroup

/-- The host character keying mode (`FBCharacterKeyingMode`). -/
inductive KeyingMode where
  | selection
  | bodyPart
  | fullBody
  | fullBodyNoPull
deriving DecidableEq

/-- The groups one parent contributes to `selected_groups`: the parent
itself in BodyPart mode, its parents (the grandparents) in FullBody mode
(`pose_inbetween.py` lines 88-95). -/
def groupsOfParent (mode : KeyingMode) (p : ParentGroup) : List KGTree :=
  (if mode = KeyingMode.bodyPart then [p.tree] else []) ++
    (if mode = KeyingMode.fullBody then p.grandparents else [])

/-- `selected_groups` contributions of a list of parents. -/
def parentsSel (mode : KeyingMode) : List ParentGroup → List KGTree
  | [] => []
  | p :: ps => groupsOfParent mode p ++ parentsSel mode ps

/-- The `selected_groups` set collected by the scan over
`Scene.KeyingGroups` (kept as a list; downstream unions are
order- and duplicate-insensitive). -/
def collectSelGroups (mode : KeyingMode) : List SceneKeyingGroup → List KGTree
  | [] => []
  | g :: gs =>
    (if g.depSelected then parentsSel mode g.parents else []) ++
      collectSelGroups mode gs

/-- `full_body_groups` contributions of a list of parents: all their
grandparents, collected regardless of the keying mode
(`pose_inbetween.py` line 96). -/
def parentsFB : List ParentGroup → List KGTree
  | [] => []
  | p :: ps => p.grandparents ++ parentsFB ps

/-- The `full_body_groups` set collected by the scan. -/
def collectFullBodyGroups : List SceneKeyingGroup → List KGTree
  | [] => []
  | g :: gs =>
    (if g.depSelected then parentsFB g.parents else []) ++
      collectFullBodyGroups gs

/-- Union a starting model set with the flattened models of a list of
groups (the `selected_models.update(...)` / `full_body.update(...)`
loops). -/
def unionFlatten (init : Finset Nat) : List KGTree → Finset Nat
  | [] => init
  | g :: gs => unionFlatten (init ∪ (KGTree.flatten g).toFinset) gs

/-- The flattened models of all grandparent groups of dependency-selected
groups (specification-side shorthand). -/
def grandparentModels (groups : List SceneKeyingGroup) : Finset Nat :=
  unionFlatten ∅ (collectFullBodyGroups groups)

/-- Embedding of `get_active_keying_group_models`.  `selection` is the
host's selected-model set, `groups` is `Scene.KeyingGroups`, `mode` is
`FBGetCharactersKeyingMode()`.  Returns `(selected_models, full_body)`. -/
def getActiveKeyingGroupModels (selection : Finset Nat)
    (groups : List SceneKeyingGroup) (mode : KeyingMode) :
    Finset Nat × Finset Nat :=
  let selectedModels := unionFlatten selection (collectSelGroups mode groups)
  let fullBody :=
    if mode = KeyingMode.fullBody ∨ mode = KeyingMode.fullBodyNoPull then
      selectedModels
    else unionFlatten selection (collectFullBodyGroups groups)
  (selectedModels, fullBody)

/-! ## Pose snapshot and blend engine -/

/-- A 3-vector with exact rational components (`FBVector3d`/`FBSVector`). -/
structure Vec3 where
  x : ℚ
  y : ℚ
  z : ℚ
deriving DecidableEq

/-- A 4-vector (`FBVector4d`, used for quaternions). -/
structure Vec4 where
  x : ℚ
  y : ℚ
  z : ℚ
  w : ℚ
deriving DecidableEq

def Vec3.add (a b : Vec3) : Vec3 := ⟨a.x + b.x, a.y + b.y, a.z + b.z⟩

def Vec3.sub (a b : Vec3) : Vec3 := ⟨a.x - b.x, a.y - b.y, a.z - b.z⟩

def Vec3.smul (a : Vec3) (t : ℚ) : Vec3 := ⟨a.x * t, a.y * t, a.z * t⟩

instance : Add Vec3 := ⟨Vec3.add⟩

instance : Sub Vec3 := ⟨Vec3.sub⟩

instance : HMul Vec3 ℚ Vec3 := ⟨Vec3.smul⟩

/-- Embedding of `lerp` (`pose_inbetween.py` lines 59-60). -/
def lerp (a b : Vec3) (t : ℚ) : Vec3 := a + (b - a) * t

/-- Componentwise midpoint of two vectors (specification-side). -/
def midpoint3 (a b : Vec3) : Vec3 :=
  ⟨(a.x + b.x) / 2, (a.y + b.y) / 2, (a.z + b.z) / 2⟩

/-- Embedding of the dataclass `ModelTransform`. -/
structure ModelTransform where
  translation : Vec3
  rotation : Vec3
  quaternion : Vec4
  scaling : Vec3
deriving DecidableEq

/-- The live transform channels of one scene model (the state written by
`model.SetVector(..., kModelTranslation/kModelRotation/kModelScaling)`). -/
structure SceneTRS where
  translation : Vec3
  rotation : Vec3
  scaling : Vec3
deriving DecidableEq

/-- The live scene: transform channels per model id.  Pose dictionaries
are modelled on their key sets as total maps (the claims only exercise
in-domain lookups). -/
abbrev Scene := Nat → SceneTRS

/-- A pose dictionary value map (`PoseT` entry lookup). -/
abbrev Pose := Nat → ModelTransform

/-- The host SDK rotation primitives used by the engine, kept opaque:
`FBInterpolateRotation` on Euler 3-vectors and on quaternions,
`FBQuaternionToRotation` and `FBRotationToQuaternion`. -/
structure HostRotation where
  interpRot3 : Vec3 → Vec3 → ℚ → Vec3
  interpRot4 : Vec4 → Vec4 → ℚ → Vec4
  quatToRot : Vec4 → Vec3
  rotToQuat : Vec3 → Vec4

def writeTranslation (sc : Scene) (m : Nat) (v : Vec3) : Scene :=
  fun k => if k = m then { sc k with translation := v } else sc k

def writeRotation (sc : Scene) (m : Nat) (v : Vec3) : Scene :=
  fun k => if k = m then { sc k with rotation := v } else sc k

def writeScaling (sc : Scene) (m : Nat) (v : Vec3) : Scene :=
  fun k => if k = m then { sc k with scaling := v } else sc k

/-- The body of the `for model in models` loop of `apply_inbetween_pose`
(`pose_inbetween.py` lines 246-270). -/
def applyInbetweenStep (host : HostRotation) (quatInterp : Nat → Bool)
    (poseA poseB : Pose) (r : ℚ) (useT useR useS : Bool)
    (sc : Scene) (m : Nat) : Scene :=
  let trsPrev := poseA m
  let trsNext := poseB m
  let sc1 := if useT then
      writeTranslation sc m (lerp trsPrev.translation trsNext.translation r)
    else sc
  let sc2 := if useR then
      (if quatInterp m then
        writeRotation sc1 m
          (host.quatToRot (host.interpRot4 trsPrev.quaternion trsNext.quaternion r))
      else
        writeRotation sc1 m (host.interpRot3 trsPrev.rotation trsNext.rotation r))
    else sc1
  if useS then
    writeScaling sc2 m (lerp trsPrev.scaling trsNext.scaling r)
  else sc2

/-- Embedding of `apply_inbetween_pose`.  `quatInterp m` is the model's
`QuaternionInterpolate` flag. -/
def applyInbetweenPose (host : HostRotation) (quatInterp : Nat → Bool)
    (models : List Nat) (poseA poseB : Pose) (r : ℚ)
    (useT useR useS : Bool) (sc : Scene) : Scene :=
  models.foldl (applyInbetweenStep host quatInterp poseA poseB r useT useR useS) sc

/-- The transform channels `apply_inbetween_pose` writes for one model
when all three channel flags are enabled (specification-side). -/
def blendTarget (host : HostRotation) (quatInterp : Nat → Bool)
    (poseA poseB : Pose) (r : ℚ) (m : Nat) : SceneTRS :=
  ⟨lerp (poseA m).translation (poseB m).translation r,
    if quatInterp m then
      host.quatToRot (host.interpRot4 (poseA m).quaternion (poseB m).quaternion r)
    else host.interpRot3 (poseA m).rotation (poseB m).rotation r,
    lerp (poseA m).scaling (poseB m).scaling r⟩

/-- The transform channels `apply_pose` writes for one model
(specification-side). -/
def poseTRS (pose : Pose) (m : Nat) : SceneTRS :=
  ⟨(pose m).translation, (pose m).rotation, (pose m).scaling⟩

/-- Embedding of `apply_pose` (`pose_inbetween.py` lines 273-284):
write the cached translation, rotation and scaling of each model. -/
def applyPose (models : List Nat) (pose : Pose) (sc : Scene) : Scene :=
  models.foldl
    (fun s m =>
      writeScaling
        (writeRotation (writeTranslation s m (pose m).translation) m
          (pose m).rotation)
        m (pose m).scaling)
    sc

/-- Embedding of `InbetweenerOverlay.apply_inbetween`
(`actionscript.py` lines 269-299): the session-level dispatch between
blend-from-current mode and absolute blend mode, including the
`(ratio + 1) / 2` remap. -/
def applyInbetweenValue (host : HostRotation) (quatInterp : Nat → Bool)
    (models : List Nat) (blendFromCurrent : Bool)
    (currentPose prevPose nextPose : Option Pose) (v : ℚ)
    (useT useR useS : Bool) (sc : Scene) : Scene :=
  if blendFromCurrent then
    let chosen : Option Pose × ℚ :=
      if 0 < v then (nextPose, v) else (prevPose, -v)
    match currentPose, chosen.1 with
    | some cur, some other =>
      applyInbetweenPose host quatInterp models cur other chosen.2 useT useR useS sc
    | _, _ => sc
  else
    match prevPose, nextPose with
    | some pa, some pb =>
      applyInbetweenPose host quatInterp models pa pb ((v + 1) / 2) useT useR useS sc
    | _, _ => sc

/-! ## Overlay editing session: embedding of `InbetweenerOverlay` -/

/-- A captured pose: the key set of the dictionary built by `get_pose`
(exactly the iterated models) and the captured transform values. -/
structure CapturedPose where
  keys : Finset Nat
  read : Pose

/-- Embedding of `get_pose` over a model list: each entry holds the
decomposed translation, Euler rotation and scaling of the evaluated
scene, plus a quaternion derived from the rotation via
`FBRotationToQuaternion`. -/
def capturePose (host : HostRotation) (models : List Nat) (sc : Scene) :
    CapturedPose :=
  ⟨models.toFinset,
    fun m =>
      ⟨(sc m).translation, (sc m).rotation, host.rotToQuat ((sc m).rotation),
        (sc m).scaling⟩⟩

/-- The host context of one overlay session: opaque rotation primitives,
per-model `QuaternionInterpolate` flags, the active and full-body model
lists, the animation data of the active models (in iteration order), the
evaluated scene as a function of time, and the time state. -/
structure OverlayParams where
  host : HostRotation
  quatInterp : Nat → Bool
  models : List Nat
  fullbody : List Nat
  animOf : Nat → FbModel
  sceneAt : Int → Scene
  currentTime : Int
  spanStart : Int
  spanStop : Int
  oneFrame : Int

/-- The mutable state of `InbetweenerOverlay` that the claims are about. -/
structure OverlayState where
  scene : Scene
  currentPose : CapturedPose
  prevPose : Option CapturedPose
  nextPose : Option CapturedPose
  prevTime : Option Int
  nextTime : Option Int
  value : ℚ
  blendFromCurrent : Bool
  useT : Bool
  useR : Bool
  useS : Bool
  undoOpen : Bool

/-- The runtime error the session code can raise: attribute lookup
failure on the `pose_inbetween` module. -/
inductive SessionError where
  | attributeError
deriving DecidableEq

/-- The body of `cache_nearest_poses` given the freshly computed bracket
`pn`.  If either time changed, the code assigns the new times
(`actionscript.py` lines 258-259) and then evaluates
`pose_inbetween.SetTimeCtx` (line 261) — an attribute that does not
exist (the module defines `set_time_ctx`), so it raises
`AttributeError` before `prev_pose`/`next_pose` are ever assigned; the
exception propagates, discarding the session.  If neither time changed,
the branch is skipped and the cached current pose is re-applied to the
full-body models. -/
def overlayCacheWith (P : OverlayParams) (pn : Int × Int)
    (s : OverlayState) : Except SessionError OverlayState :=
  if some pn.1 ≠ s.prevTime ∨ some pn.2 ≠ s.nextTime then
    Except.error SessionError.attributeError
  else
    Except.ok { s with scene := applyPose P.fullbody s.currentPose.read s.scene }

/-- Embedding of `InbetweenerOverlay.cache_nearest_poses`
(`actionscript.py` lines 246-267): recompute the bracket over the active
models, then update the cached poses — faulting on the times-changed
branch as the source does. -/
def overlayCacheNearestPoses (P : OverlayParams) (s : OverlayState) :
    Except SessionError OverlayState :=
  overlayCacheWith P
    (findNearestKeyframes (P.models.map P.animOf) s.useT s.useR s.useS
      P.currentTime P.spanStart P.spanStop P.oneFrame)
    s

/-- One `apply_inbetween(self.value)` call on the live scene. -/
def overlayApplyInbetween (P : OverlayParams) (s : OverlayState) :
    OverlayState :=
  { s with
    scene := applyInbetweenValue P.host P.quatInterp P.models
      s.blendFromCurrent (some s.currentPose.read)
      (s.prevPose.map CapturedPose.read) (s.nextPose.map CapturedPose.read)
      s.value s.useT s.useR s.useS s.scene }

/-- The overlay state as `InbetweenerOverlay.__init__` builds it before
`start_editing` runs: `current_pose` captured over the full-body models
from the evaluated scene at the current time, both pose-time caches
`None`, the undo transaction not yet opened. -/
def overlayBaseState (P : OverlayParams) (bfc uT uR uS : Bool) :
    OverlayState :=
  { scene := P.sceneAt P.currentTime
    currentPose := capturePose P.host P.fullbody (P.sceneAt P.currentTime)
    prevPose := none
    nextPose := none
    prevTime := none
    nextTime := none
    value := 0
    blendFromCurrent := bfc
    useT := uT
    useR := uR
    useS := uS
    undoOpen := false }

/-- Embedding of `InbetweenerOverlay.__init__` followed by
`start_editing`: cache the nearest poses, reset the value and open the
undo transaction (`TransactionBegin` runs only after
`cache_nearest_poses` returns, so an error there leaves the transaction
unopened and aborts the session). -/
def overlayInit (P : OverlayParams) (bfc uT uR uS : Bool) :
    Except SessionError OverlayState :=
  match overlayCacheNearestPoses P (overlayBaseState P bfc uT uR uS) with
  | Except.error e => Except.error e
  | Except.ok s1 => Except.ok { s1 with value := 0, undoOpen := true }

/-- Embedding of `update_value`: store the value and apply the blend. -/
def overlayUpdateValue (P : OverlayParams) (s : OverlayState) (v : ℚ) :
    OverlayState :=
  overlayApplyInbetween P { s with value := v }

/-- Which channel-mask label the user toggled. -/
inductive TrsChannel where
  | t
  | r
  | s

/-- Embedding of the channel-mask property setters plus `on_trs_changed`:
flip the flag, re-cache the nearest poses (which may fault), re-apply
the blend. -/
def overlayToggle (P : OverlayParams) (s : OverlayState) (c : TrsChannel) :
    Except SessionError OverlayState :=
  let s1 :=
    match c with
    | TrsChannel.t => { s with useT := !s.useT }
    | TrsChannel.r => { s with useR := !s.useR }
    | TrsChannel.s => { s with useS := !s.useS }
  match overlayCacheNearestPoses P s1 with
  | Except.error e => Except.error e
  | Except.ok s2 => Except.ok (overlayApplyInbetween P s2)

/-- Embedding of `InbetweenerOverlay.cancel` followed by `close`:
re-apply the cached current pose to the active models, then end the undo
transaction. -/
def overlayCancel (P : OverlayParams) (s : OverlayState) : OverlayState :=
  let s1 := { s with scene := applyPose P.models s.currentPose.read s.scene }
  { s1 with undoOpen := false }

/-- The overlay states reachable during one editing session: a state
successfully produced by construction, followed by any sequence of
slider updates and successful channel-mask toggles (an erroring
transition aborts the session and yields no state). -/
inductive OverlayReach (P : OverlayParams) : OverlayState → Prop
  | init (bfc uT uR uS : Bool) (s : OverlayState) :
      overlayInit P bfc uT uR uS = Except.ok s → OverlayReach P s
  | update (s : OverlayState) (v : ℚ) :
      OverlayReach P s → OverlayReach P (overlayUpdateValue P s v)
  | toggle (s s' : OverlayState) (c : TrsChannel) :
      OverlayReach P s → overlayToggle P s c = Except.ok s' →
      OverlayReach P s'

/-! ## Concrete scenes used by counterexamples and witnesses -/

/-- A property that is not animated. -/
def deadProp : AnimProp := ⟨false, []⟩

/-- A model with translation keys at frames 1 and 99 only. -/
def demoM1 : FbModel := ⟨⟨true, [[1, 99]]⟩, deadProp, deadProp⟩

/-- A model with translation keys at frames 49 and 51 only. -/
def demoM2 : FbModel := ⟨⟨true, [[49, 51]]⟩, deadProp, deadProp⟩

/-- A model with translation keys at frames 0, 10 and 20 only. -/
def demoM3 : FbModel := ⟨⟨true, [[0, 10, 20]]⟩, deadProp, deadProp⟩

/-- A model with no animation at all. -/
def demoDeadModel : FbModel := ⟨deadProp, deadProp, deadProp⟩

/-- A keying-group scene with one dependency-selected group whose single
parent has one grandparent group owning model 2. -/
def demoGroups : List SceneKeyingGroup :=
  [⟨true, [⟨KGTree.node [] [], [KGTree.node [2] []]⟩]⟩]

/-- A concrete host-rotation implementation used to instantiate witness
theorems: linear interpolation and padding/truncating conversions. -/
def demoHost : HostRotation :=
  ⟨fun a b t => lerp a b t,
    fun a b t =>
      ⟨a.x + (b.x - a.x) * t, a.y + (b.y - a.y) * t, a.z + (b.z - a.z) * t,
        a.w + (b.w - a.w) * t⟩,
    fun q => ⟨q.x, q.y, q.z⟩,
    fun r => ⟨r.x, r.y, r.z, 0⟩⟩

/-- A concrete evaluated-scene function: distinct channel values per model
and time. -/
def demoSceneAt : Int → Scene :=
  fun tm m =>
    ⟨⟨(tm : ℚ), (m : ℚ), 0⟩, ⟨(m : ℚ) + 1, 2, 3⟩, ⟨1, 1, (m : ℚ)⟩⟩

/-- Concrete overlay session parameters: active models `[1]`, full-body
models `[1, 2]`, no animation, current time 5 inside span `[0, 10]`. -/
def demoP : OverlayParams :=
  ⟨demoHost, fun _ => false, [1], [1, 2], fun _ => demoDeadModel,
    demoSceneAt, 5, 0, 10, 1⟩

/-- A concrete pose whose quaternion entry is `demoHost.rotToQuat` of its
rotation entry. -/
def demoPoseA : Pose :=
  fun _ => ⟨⟨1, 2, 3⟩, ⟨4, 5, 6⟩, ⟨4, 5, 6, 0⟩, ⟨7, 8, 9⟩⟩

/-- A second such pose. -/
def demoPoseB : Pose :=
  fun _ => ⟨⟨10, 20, 30⟩, ⟨40, 50, 60⟩, ⟨40, 50, 60, 0⟩, ⟨70, 80, 90⟩⟩

/-! ## Lemmas: the fold characterizations of the running bounds -/

theorem tightenPrevSpec_ge (t : Int) :
    ∀ (keys : List Int) (a : Int), a ≤ tightenPrevSpec a t keys := by
  intro keys
  induction keys with
  | nil => intro a; exact le_refl a
  | cons k ks ih =>
    intro a
    have h := ih (if k < t then max a k else a)
    refine le_trans ?_ h
    by_cases hk : k < t
    · simp [hk]
    · simp [hk]

theorem tightenPrevSpec_mem (t : Int) :
    ∀ (keys : List Int) (a k : Int), k ∈ keys → k < t →
      k ≤ tightenPrevSpec a t keys := by
  intro keys
  induction keys with
  | nil => intro a k hk; simp at hk
  | cons x xs ih =>
    intro a k hk hlt
    rcases List.mem_cons.mp hk with h | h
    · subst h
      have : k ≤ (if k < t then max a k else a) := by simp [hlt]
      exact le_trans this (tightenPrevSpec_ge t xs _)
    · exact ih _ k h hlt

theorem tightenPrevSpec_le (t : Int) :
    ∀ (keys : List Int) (a c : Int), a ≤ c →
      (∀ k ∈ keys, k < t → k ≤ c) → tightenPrevSpec a t keys ≤ c := by
  intro keys
  induction keys with
  | nil => intro a c ha _; exact ha
  | cons x xs ih =>
    intro a c ha hk
    refine ih _ c ?_ ?_
    · by_cases hx : x < t
      · simp only [tightenPrevSpec, hx, if_true]
        exact max_le ha (hk x (List.mem_cons_self x xs) hx)
      · simpa [hx] using ha
    · intro k hkmem hklt
      exact hk k (List.mem_cons_of_mem x hkmem) hklt

theorem tightenPrevSpec_eq (t : Int) (keys : List Int) (a v : Int)
    (hav : a ≤ v) (hub : ∀ k ∈ keys, k < t → k ≤ v)
    (hcases : v = a ∨ (v ∈ keys ∧ v < t)) :
    tightenPrevSpec a t keys = v := by
  refine le_antisymm (tightenPrevSpec_le t keys a v hav hub) ?_
  rcases hcases with h | ⟨hmem, hlt⟩
  · subst h; exact tightenPrevSpec_ge t keys v
  · exact tightenPrevSpec_mem t keys a v hmem hlt

theorem tightenNextSpec_le (t : Int) :
    ∀ (keys : List Int) (b : Int), tightenNextSpec b t keys ≤ b := by
  intro keys
  induction keys with
  | nil => intro b; exact le_refl b
  | cons k ks ih =>
    intro b
    refine le_trans (ih (if t < k then min b k else b)) ?_
    by_cases hk : t < k
    · simp [hk]
    · simp [hk]

theorem tightenNextSpec_mem (t : Int) :
    ∀ (keys : List Int) (b k : Int), k ∈ keys → t < k →
      tightenNextSpec b t keys ≤ k := by
  intro keys
  induction keys with
  | nil => intro b k hk; simp at hk
  | cons x xs ih =>
    intro b k hk hlt
    rcases List.mem_cons.mp hk with h | h
    · subst h
      have : (if t < k then min b k else b) ≤ k := by simp [hlt]
      exact le_trans (tightenNextSpec_le t xs _) this
    · exact ih _ k h hlt

theorem tightenNextSpec_ge (t : Int) :
    ∀ (keys : List Int) (b c : Int), c ≤ b →
      (∀ k ∈ keys, t < k → c ≤ k) → c ≤ tightenNextSpec b t keys := by
  intro keys
  induction keys with
  | nil => intro b c hb _; exact hb
  | cons x xs ih =>
    intro b c hb hk
    refine ih _ c ?_ ?_
    · by_cases hx : t < x
      · simp only [tightenNextSpec, hx, if_true]
        exact le_min hb (hk x (List.mem_cons_self x xs) hx)
      · simpa [hx] using hb
    · intro k hkmem hklt
      exact hk k (List.mem_cons_of_mem x hkmem) hklt

theorem tightenNextSpec_eq (t : Int) (keys : List Int) (b v : Int)
    (hbv : v ≤ b) (hlb : ∀ k ∈ keys, t < k → v ≤ k)
    (hcases : v = b ∨ (v ∈ keys ∧ t < v)) :
    tightenNextSpec b t keys = v := by
  refine le_antisymm ?_ (tightenNextSpec_ge t keys b v hbv hlb)
  rcases hcases with h | ⟨hmem, hlt⟩
  · subst h; exact tightenNextSpec_le t keys v
  · exact tightenNextSpec_mem t keys b v hmem hlt

theorem tightenPrevSpec_append (a t : Int) (l1 l2 : List Int) :
    tightenPrevSpec a t (l1 ++ l2) =
      tightenPrevSpec (tightenPrevSpec a t l1) t l2 := by
  simp [tightenPrevSpec, List.foldl_append]

theorem tightenNextSpec_append (b t : Int) (l1 l2 : List Int) :
    tightenNextSpec b t (l1 ++ l2) =
      tightenNextSpec (tightenNextSpec b t l1) t l2 := by
  simp [tightenNextSpec, List.foldl_append]

/-! ## Lemmas: list index helpers -/

theorem mem_iff_getD (l : List Int) (k : Int) :
    k ∈ l ↔ ∃ i, i < l.length ∧ l.getD i 0 = k := by
  induction l with
  | nil => simp
  | cons x xs ih =>
    constructor
    · intro h
      rcases List.mem_cons.mp h with h | h
      · exact ⟨0, by simp [h.symm]⟩
      · rcases ih.mp h with ⟨i, hi, hget⟩
        exact ⟨i + 1, by simpa using hi, by simpa using hget⟩
    · rintro ⟨i, hi, hget⟩
      cases i with
      | zero => simp at hget; simp [hget.symm]
      | succ j =>
        refine List.mem_cons_of_mem x (ih.mpr ⟨j, ?_, ?_⟩)
        · simpa using hi
        · simpa using hget

theorem getD_mem (l : List Int) (i : Nat) (hi : i < l.length) :
    l.getD i 0 ∈ l :=
  (mem_iff_getD l _).mpr ⟨i, hi, rfl⟩

theorem sorted_getD (l : List Int) (h : SortedKeys l) :
    ∀ i j, i < j → j < l.length → l.getD i 0 < l.getD j 0 := by
  induction l with
  | nil => intro i j _ hj; simp at hj
  | cons x xs ih =>
    rcases List.pairwise_cons.mp h with ⟨hx, hxs⟩
    intro i j hij hj
    cases i with
    | zero =>
      cases j with
      | zero => omega
      | succ j' =>
        have hj' : j' < xs.length := by simpa using hj
        have : xs.getD j' 0 ∈ xs := getD_mem xs j' hj'
        simpa using hx _ this
    | succ i' =>
      cases j with
      | zero => omega
      | succ j' =>
        have := ih hxs i' j' (by omega) (by simpa using hj)
        simpa using this

/-! ## Lemmas: characterization of the binary search -/

theorem if_lt_max (a b : Int) : (if a < b then b else a) = max a b := by
  rcases lt_or_le a b with h | h
  · simp [h, max_eq_right h.le]
  · simp [not_lt.mpr h, max_eq_left h]

theorem if_lt_min (a b : Int) : (if b < a then b else a) = min a b := by
  rcases lt_or_le b a with h | h
  · simp [h, min_eq_right h.le]
  · simp [not_lt.mpr h, min_eq_left h]

theorem bsearch_terminal_prev (keys : List Int) (t : Int)
    (hs : ∀ i j, i < j → j < keys.length → keys.getD i 0 < keys.getD j 0)
    (left : Nat) (hle : left ≤ keys.length)
    (hlo : ∀ i, i < left → keys.getD i 0 < t)
    (hhi : ∀ i, left ≤ i → i < keys.length → t < keys.getD i 0)
    (tp0 : Int) :
    tightenPrevSpec tp0 t keys =
      (if left = 0 then tp0 else max tp0 (keys.getD (left - 1) 0)) := by
  by_cases h0 : left = 0
  · subst h0
    simp only [if_pos rfl]
    refine tightenPrevSpec_eq t keys tp0 tp0 le_rfl ?_ (Or.inl rfl)
    intro k hk hklt
    rcases (mem_iff_getD keys k).mp hk with ⟨i, hi, hget⟩
    exact absurd (hget ▸ hhi i (Nat.zero_le i) hi) (not_lt.mpr hklt.le)
  · simp only [if_neg h0]
    have hl1 : 1 ≤ left := Nat.one_le_iff_ne_zero.mpr h0
    have hlm : left - 1 < keys.length := by omega
    refine tightenPrevSpec_eq t keys tp0 _ (le_max_left _ _) ?_ ?_
    · intro k hk hklt
      rcases (mem_iff_getD keys k).mp hk with ⟨i, hi, hget⟩
      have hiL : i < left := by
        by_contra hc
        exact absurd (hget ▸ hhi i (not_lt.mp hc) hi) (not_lt.mpr hklt.le)
      have : keys.getD i 0 ≤ keys.getD (left - 1) 0 := by
        rcases Nat.lt_or_ge i (left - 1) with hi2 | hi2
        · exact (hs i (left - 1) hi2 hlm).le
        · have : i = left - 1 := by omega
          subst this; exact le_rfl
      exact hget ▸ le_trans this (le_max_right _ _)
    · rcases le_total (keys.getD (left - 1) 0) tp0 with h | h
      · exact Or.inl (max_eq_left h)
      · refine Or.inr ⟨?_, ?_⟩
        · rw [max_eq_right h]; exact getD_mem keys _ hlm
        · rw [max_eq_right h]; exact hlo _ (by omega)

theorem bsearch_terminal_next (keys : List Int) (t : Int)
    (hs : ∀ i j, i < j → j < keys.length → keys.getD i 0 < keys.getD j 0)
    (left : Nat) (hle : left ≤ keys.length)
    (hlo : ∀ i, i < left → keys.getD i 0 < t)
    (hhi : ∀ i, left ≤ i → i < keys.length → t < keys.getD i 0)
    (tn0 : Int) :
    tightenNextSpec tn0 t keys =
      (if left = keys.length then tn0 else min tn0 (keys.getD left 0)) := by
  by_cases h0 : left = keys.length
  · subst h0
    simp only [if_pos rfl]
    refine tightenNextSpec_eq t keys tn0 tn0 le_rfl ?_ (Or.inl rfl)
    intro k hk hklt
    rcases (mem_iff_getD keys k).mp hk with ⟨i, hi, hget⟩
    exact absurd (hget ▸ hlo i hi) (not_lt.mpr hklt.le)
  · simp only [if_neg h0]
    have hlm : left < keys.length := lt_of_le_of_ne hle h0
    refine tightenNextSpec_eq t keys tn0 _ (min_le_left _ _) ?_ ?_
    · intro k hk hklt
      rcases (mem_iff_getD keys k).mp hk with ⟨i, hi, hget⟩
      have hiL : left ≤ i := by
        by_contra hc
        exact absurd (hget ▸ hlo i (not_le.mp hc)) (not_lt.mpr hklt.le)
      have : keys.getD left 0 ≤ keys.getD i 0 := by
        rcases Nat.lt_or_ge left i with hi2 | hi2
        · exact (hs left i hi2 hi).le
        · have : left = i := by omega
          subst this; exact le_rfl
      exact hget ▸ le_trans (min_le_right _ _) this
    · rcases le_total tn0 (keys.getD left 0) with h | h
      · exact Or.inl (min_eq_left h)
      · refine Or.inr ⟨?_, ?_⟩
        · rw [min_eq_right h]; exact getD_mem keys _ hlm
        · rw [min_eq_right h]; exact hhi _ le_rfl hlm

theorem bsearchGo_char (keys : List Int) (t : Int)
    (hs : ∀ i j, i < j → j < keys.length → keys.getD i 0 < keys.getD j 0) :
    ∀ (fuel left rightSucc : Nat) (tp0 tn0 tp tn : Int),
      rightSucc - left ≤ fuel →
      rightSucc ≤ keys.length →
      left ≤ rightSucc →
      (∀ i, i < left → keys.getD i 0 < t) →
      (∀ i, rightSucc ≤ i → i < keys.length → t < keys.getD i 0) →
      tp = (if left = 0 then tp0 else max tp0 (keys.getD (left - 1) 0)) →
      tn = (if rightSucc = keys.length then tn0
        else min tn0 (keys.getD rightSucc 0)) →
      bsearchGo keys t fuel left rightSucc tp tn =
        (tightenPrevSpec tp0 t keys, tightenNextSpec tn0 t keys) := by
  intro fuel
  induction fuel with
  | zero =>
    intro left rightSucc tp0 tn0 tp tn hf hr hlr hlo hhi htp htn
    have heq : left = rightSucc := by omega
    subst heq
    simp only [bsearchGo]
    rw [bsearch_terminal_prev keys t hs left hr hlo hhi tp0,
      bsearch_terminal_next keys t hs left hr hlo hhi tn0, htp, htn]
  | succ fuel ih =>
    intro left rightSucc tp0 tn0 tp tn hf hr hlr hlo hhi htp htn
    by_cases hL : left < rightSucc
    · have hmid : midIdx left rightSucc = (left + rightSucc - 1) / 2 := rfl
      have hm1 : left ≤ midIdx left rightSucc := by omega
      have hm2 : midIdx left rightSucc < rightSucc := by omega
      have hmlen : midIdx left rightSucc < keys.length := lt_of_lt_of_le hm2 hr
      by_cases hkey : keys.getD (midIdx left rightSucc) 0 = t
      · -- exact hit: the adjacent keys are the strict neighbours of t
        simp only [bsearchGo, if_pos hL, if_pos hkey]
        refine Prod.ext ?_ ?_
        · -- previous component
          by_cases hm0 : 1 ≤ midIdx left rightSucc
          · simp only [if_pos hm0, if_lt_max]
            have hl0 : keys.getD (left - 1) 0 ≤
                keys.getD (midIdx left rightSucc - 1) 0 ∨ left = 0 := by
              by_cases h0 : left = 0
              · exact Or.inr h0
              · refine Or.inl ?_
                rcases Nat.lt_or_ge (left - 1) (midIdx left rightSucc - 1)
                  with h | h
                · exact (hs _ _ h (by omega)).le
                · have : left - 1 = midIdx left rightSucc - 1 := by omega
                  rw [this]
            have htp' : max tp (keys.getD (midIdx left rightSucc - 1) 0) =
                max tp0 (keys.getD (midIdx left rightSucc - 1) 0) := by
              rcases hl0 with h | h
              · rw [htp]
                by_cases h0 : left = 0
                · simp [h0]
                · simp only [if_neg h0]
                  rw [max_assoc, max_eq_right h]
              · rw [htp]; simp [h]
            rw [htp']
            refine (tightenPrevSpec_eq t keys tp0 _ (le_max_left _ _) ?_ ?_).symm
            · intro k hk hklt
              rcases (mem_iff_getD keys k).mp hk with ⟨i, hi, hget⟩
              have hiM : i < midIdx left rightSucc := by
                rcases Nat.lt_trichotomy i (midIdx left rightSucc)
                  with h | h | h
                · exact h
                · exfalso; rw [h, hkey] at hget; omega
                · exfalso
                  have := hs _ _ h hi
                  rw [hkey] at this; omega
              have : keys.getD i 0 ≤ keys.getD (midIdx left rightSucc - 1) 0 := by
                rcases Nat.lt_or_ge i (midIdx left rightSucc - 1) with h | h
                · exact (hs _ _ h (by omega)).le
                · have : i = midIdx left rightSucc - 1 := by omega
                  rw [this]
              exact hget ▸ le_trans this (le_max_right _ _)
            · rcases le_total (keys.getD (midIdx left rightSucc - 1) 0) tp0
                with h | h
              · exact Or.inl (max_eq_left h)
              · refine Or.inr ⟨?_, ?_⟩
                · rw [max_eq_right h]; exact getD_mem keys _ (by omega)
                · rw [max_eq_right h, ← hkey]
                  exact hs _ _ (by omega) hmlen
          · -- mid = 0: no key strictly below t
            have hm00 : midIdx left rightSucc = 0 := by omega
            have hl00 : left = 0 := by omega
            simp only [if_neg hm0]
            rw [htp, if_pos hl00]
            refine (tightenPrevSpec_eq t keys tp0 tp0 le_rfl ?_ (Or.inl rfl)).symm
            intro k hk hklt
            rcases (mem_iff_getD keys k).mp hk with ⟨i, hi, hget⟩
            rcases Nat.eq_zero_or_pos i with h | h
            · exfalso
              rw [h] at hget
              rw [← hm00, hkey] at hget
              omega
            · exfalso
              have := hs 0 i h hi
              rw [← hm00 ] at this
              rw [hkey] at this
              omega
        · -- next component
          by_cases hm0 : midIdx left rightSucc + 1 < keys.length
          · simp only [if_pos hm0, if_lt_min]
            have hr0 : keys.getD (midIdx left rightSucc + 1) 0 ≤
                keys.getD rightSucc 0 ∨ rightSucc = keys.length := by
              by_cases h0 : rightSucc = keys.length
              · exact Or.inr h0
              · refine Or.inl ?_
                rcases Nat.lt_or_ge (midIdx left rightSucc + 1) rightSucc
                  with h | h
                · exact (hs _ _ h (by omega)).le
                · have : midIdx left rightSucc + 1 = rightSucc := by omega
                  rw [this]
            have htn' : min tn (keys.getD (midIdx left rightSucc + 1) 0) =
                min tn0 (keys.getD (midIdx left rightSucc + 1) 0) := by
              rcases hr0 with h | h
              · rw [htn]
                by_cases h0 : rightSucc = keys.length
                · simp [h0]
                · simp only [if_neg h0]
                  rw [min_assoc, min_eq_right h]
              · rw [htn]; simp [h]
            rw [htn']
            refine (tightenNextSpec_eq t keys tn0 _ (min_le_left _ _) ?_ ?_).symm
            · intro k hk hklt
              rcases (mem_iff_getD keys k).mp hk with ⟨i, hi, hget⟩
              have hiM : midIdx left rightSucc < i := by
                rcases Nat.lt_trichotomy i (midIdx left rightSucc)
                  with h | h | h
                · exfalso
                  have := hs _ _ h hmlen
                  rw [hkey] at this; omega
                · exfalso; rw [h, hkey] at hget; omega
                · exact h
              have : keys.getD (midIdx left rightSucc + 1) 0 ≤ keys.getD i 0 := by
                rcases Nat.lt_or_ge (midIdx left rightSucc + 1) i with h | h
                · exact (hs _ _ h hi).le
                · have : midIdx left rightSucc + 1 = i := by omega
                  rw [this]
              exact hget ▸ le_trans (min_le_right _ _) this
            · rcases le_total tn0 (keys.getD (midIdx left rightSucc + 1) 0)
                with h | h
              · exact Or.inl (min_eq_left h)
              · refine Or.inr ⟨?_, ?_⟩
                · rw [min_eq_right h]; exact getD_mem keys _ hm0
                · rw [min_eq_right h, ← hkey]
                  exact hs _ _ (by omega) hm0
          · -- mid is the last key: no key strictly above t
            have hrS : rightSucc = keys.length := by omega
            simp only [if_neg hm0]
            rw [htn, if_pos hrS]
            refine (tightenNextSpec_eq t keys tn0 tn0 le_rfl ?_ (Or.inl rfl)).symm
            intro k hk hklt
            rcases (mem_iff_getD keys k).mp hk with ⟨i, hi, hget⟩
            have hiM : i ≤ midIdx left rightSucc := by omega
            rcases Nat.lt_or_ge i (midIdx left rightSucc) with h | h
            · exfalso
              have := hs _ _ h hmlen
              rw [hkey] at this
              omega
            · exfalso
              have : i = midIdx left rightSucc := by omega
              rw [this, hkey] at hget
              omega
      · by_cases hlt : keys.getD (midIdx left rightSucc) 0 < t
        · -- descend right: everything at or below mid is strictly below t
          simp only [bsearchGo, if_pos hL, if_neg hkey, if_pos hlt, if_lt_max]
          refine ih (midIdx left rightSucc + 1) rightSucc tp0 tn0 _ tn
            (by omega) hr (by omega) ?_ hhi ?_ htn
          · intro i hi
            rcases Nat.lt_or_ge i (midIdx left rightSucc) with h | h
            · exact lt_trans (hs _ _ h hmlen) hlt
            · have : i = midIdx left rightSucc := by omega
              rw [this]; exact hlt
          · have : max tp (keys.getD (midIdx left rightSucc) 0) =
                max tp0 (keys.getD (midIdx left rightSucc) 0) := by
              rw [htp]
              by_cases h0 : left = 0
              · simp [h0]
              · simp only [if_neg h0]
                have : keys.getD (left - 1) 0 ≤
                    keys.getD (midIdx left rightSucc) 0 := by
                  rcases Nat.lt_or_ge (left - 1) (midIdx left rightSucc)
                    with h | h
                  · exact (hs _ _ h hmlen).le
                  · have : left - 1 = midIdx left rightSucc := by omega
                    rw [this]
                rw [max_assoc, max_eq_right this]
            rw [this]
            simp
        · -- descend left: everything at or above mid is strictly above t
          have hgt : t < keys.getD (midIdx left rightSucc) 0 := by
            rcases lt_trichotomy (keys.getD (midIdx left rightSucc) 0) t
              with h | h | h
            · exact absurd h hlt
            · exact absurd h hkey
            · exact h
          simp only [bsearchGo, if_pos hL, if_neg hkey, if_neg hlt, if_lt_min]
          refine ih left (midIdx left rightSucc) tp0 tn0 tp _
            (by omega) (by omega) (by omega) hlo ?_ htp ?_
          · intro i hi hilen
            rcases Nat.lt_or_ge (midIdx left rightSucc) i with h | h
            · exact lt_trans hgt (hs _ _ h hilen)
            · have : i = midIdx left rightSucc := by omega
              rw [this]; exact hgt
          · have hmne : ¬ midIdx left rightSucc = keys.length := by omega
            simp only [if_neg hmne]
            rw [htn]
            by_cases h0 : rightSucc = keys.length
            · simp [h0]
            · simp only [if_neg h0]
              have : keys.getD (midIdx left rightSucc) 0 ≤
                  keys.getD rightSucc 0 := by
                exact (hs _ _ hm2 (by omega)).le
              rw [min_assoc, min_eq_right this]
    · have heq : left = rightSucc := by omega
      subst heq
      simp only [bsearchGo, if_neg hL]
      rw [bsearch_terminal_prev keys t hs left hr hlo hhi tp0,
        bsearch_terminal_next keys t hs left hr hlo hhi tn0, htp, htn]

theorem bsearchKeys_char (keys : List Int) (t : Int) (h : SortedKeys keys)
    (tp tn : Int) :
    bsearchKeys keys t tp tn =
      (tightenPrevSpec tp t keys, tightenNextSpec tn t keys) := by
  refine bsearchGo_char keys t (sorted_getD keys h) keys.length 0 keys.length
    tp tn tp tn (by omega) le_rfl (Nat.zero_le _) ?_ ?_ ?_ ?_
  · intro i hi; omega
  · intro i hi hilen; omega
  · simp
  · simp

theorem foldNodes_char (t : Int) :
    ∀ (nodes : List KeyList) (acc : Int × Int),
      (∀ ks ∈ nodes, SortedKeys ks) →
      nodes.foldl (tightenNode t) acc =
        (tightenPrevSpec acc.1 t (joinKeys nodes),
          tightenNextSpec acc.2 t (joinKeys nodes)) := by
  intro nodes
  induction nodes with
  | nil => intro acc _; simp [joinKeys, tightenPrevSpec, tightenNextSpec]
  | cons ks rest ih =>
    intro acc hsort
    have hks : SortedKeys ks := hsort ks (List.mem_cons_self ks rest)
    have hrest : ∀ l ∈ rest, SortedKeys l :=
      fun l hl => hsort l (List.mem_cons_of_mem ks hl)
    simp only [List.foldl_cons]
    rw [ih _ hrest]
    simp only [tightenNode, bsearchKeys_char ks t hks, joinKeys,
      tightenPrevSpec_append, tightenNextSpec_append]

theorem updateClosestKeyframe_char (t : Int) (p : AnimProp) (acc : Int × Int)
    (hsort : ∀ ks ∈ p.nodes, SortedKeys ks) :
    updateClosestKeyframe t p acc =
      (tightenPrevSpec acc.1 t (propKeys p),
        tightenNextSpec acc.2 t (propKeys p)) := by
  by_cases ha : p.isAnimated
  · simp only [updateClosestKeyframe, ha, if_true, propKeys]
    exact foldNodes_char t p.nodes acc hsort
  · simp [updateClosestKeyframe, ha, propKeys, tightenPrevSpec,
      tightenNextSpec]

theorem stepModel_char (t : Int) (useT useR useS : Bool) (acc : Int × Int)
    (m : FbModel) (hm : ModelSorted m) :
    stepModel t useT useR useS acc m =
      (tightenPrevSpec acc.1 t (modelKeys useT useR useS m),
        tightenNextSpec acc.2 t (modelKeys useT useR useS m)) := by
  obtain ⟨hT, hR, hS⟩ := hm
  have step1 : (if useT then updateClosestKeyframe t m.translation acc
      else acc) =
      (tightenPrevSpec acc.1 t (if useT then propKeys m.translation else []),
        tightenNextSpec acc.2 t
          (if useT then propKeys m.translation else [])) := by
    cases useT with
    | false => simp [tightenPrevSpec, tightenNextSpec]
    | true => simpa using updateClosestKeyframe_char t m.translation acc hT
  have step2 : ∀ a : Int × Int,
      (if useR then updateClosestKeyframe t m.rotation a else a) =
      (tightenPrevSpec a.1 t (if useR then propKeys m.rotation else []),
        tightenNextSpec a.2 t (if useR then propKeys m.rotation else [])) := by
    intro a
    cases useR with
    | false => simp [tightenPrevSpec, tightenNextSpec]
    | true => simpa using updateClosestKeyframe_char t m.rotation a hR
  have step3 : ∀ a : Int × Int,
      (if useS then updateClosestKeyframe t m.scaling a else a) =
      (tightenPrevSpec a.1 t (if useS then propKeys m.scaling else []),
        tightenNextSpec a.2 t (if useS then propKeys m.scaling else [])) := by
    intro a
    cases useS with
    | false => simp [tightenPrevSpec, tightenNextSpec]
    | true => simpa using updateClosestKeyframe_char t m.scaling a hS
  simp only [stepModel]
  rw [step1, step2, step3]
  simp only [modelKeys, tightenPrevSpec_append, tightenNextSpec_append]

theorem findLoop_char (t : Int) (useT useR useS : Bool) (eoP eoN : Int) :
    ∀ (ms : List FbModel) (acc : Int × Int),
      (∀ m ∈ ms, ModelSorted m) →
      ∃ k, k ≤ ms.length ∧
        findLoop t useT useR useS eoP eoN ms acc =
          (tightenPrevSpec acc.1 t (modelsKeys useT useR useS (ms.take k)),
            tightenNextSpec acc.2 t (modelsKeys useT useR useS (ms.take k))) ∧
        (k = ms.length ∨
          (eoP ≤ (findLoop t useT useR useS eoP eoN ms acc).1 ∧
            (findLoop t useT useR useS eoP eoN ms acc).2 ≤ eoN)) := by
  intro ms
  induction ms with
  | nil =>
    intro acc _
    exact ⟨0, le_rfl, by simp [findLoop, modelsKeys, tightenPrevSpec,
      tightenNextSpec], Or.inl rfl⟩
  | cons m rest ih =>
    intro acc hsort
    have hm : ModelSorted m := hsort m (List.mem_cons_self m rest)
    have hrest : ∀ m' ∈ rest, ModelSorted m' :=
      fun m' hm' => hsort m' (List.mem_cons_of_mem m hm')
    have hstep := stepModel_char t useT useR useS acc m hm
    by_cases hbrk : eoP ≤ (stepModel t useT useR useS acc m).1 ∧
        (stepModel t useT useR useS acc m).2 ≤ eoN
    · refine ⟨1, by simp, ?_, ?_⟩
      · simp only [findLoop, if_pos hbrk, List.take_succ_cons, List.take_zero,
          modelsKeys, List.append_nil]
        exact hstep
      · refine Or.inr ?_
        simp only [findLoop, if_pos hbrk]
        exact hbrk
    · rcases ih (stepModel t useT useR useS acc m) hrest with
        ⟨k, hk, heq, hbr⟩
      refine ⟨k + 1, by simpa using hk, ?_, ?_⟩
      · simp only [findLoop, if_neg hbrk, List.take_succ_cons, modelsKeys,
          tightenPrevSpec_append, tightenNextSpec_append]
        rw [heq, hstep]
      · rcases hbr with h | h
        · exact Or.inl (by simp [h])
        · refine Or.inr ?_
          simp only [findLoop, if_neg hbrk]
          exact h

/-- Bracket characterization of `find_nearest_keyframes`: the result is
the strict bracket (clamped to the span edges) over the union of the
enabled channels' curves of a scanned initial segment of the models, and
that segment is the whole collection unless the early-out thresholds are
already met by the returned value. -/
theorem findNearestKeyframes_char (models : List FbModel)
    (useT useR useS : Bool) (t a b f1 : Int)
    (hsort : ∀ m ∈ models, ModelSorted m) :
    ∃ k, k ≤ models.length ∧
      findNearestKeyframes models useT useR useS t a b f1 =
        (tightenPrevSpec a t (modelsKeys useT useR useS (models.take k)),
          tightenNextSpec b t (modelsKeys useT useR useS (models.take k))) ∧
      (k = models.length ∨
        (a + f1 ≤ (findNearestKeyframes models useT useR useS t a b f1).1 ∧
          (findNearestKeyframes models useT useR useS t a b f1).2 ≤ b - f1)) :=
  findLoop_char t useT useR useS (a + f1) (b - f1) models (a, b) hsort

/-! ## Lemmas: the scan only ever tightens the bracket -/

theorem bsearchGo_tightens (keys : List Int) (t : Int) :
    ∀ (fuel left rightSucc : Nat) (tp tn : Int),
      tp ≤ (bsearchGo keys t fuel left rightSucc tp tn).1 ∧
        (bsearchGo keys t fuel left rightSucc tp tn).2 ≤ tn := by
  intro fuel
  induction fuel with
  | zero => intro left rightSucc tp tn; simp [bsearchGo]
  | succ fuel ih =>
    intro left rightSucc tp tn
    by_cases hL : left < rightSucc
    · by_cases hkey : keys.getD (midIdx left rightSucc) 0 = t
      · simp only [bsearchGo, if_pos hL, if_pos hkey]
        constructor
        · by_cases h1 : 1 ≤ midIdx left rightSucc
          · simp only [if_pos h1, if_lt_max]; exact le_max_left _ _
          · simp [if_neg h1]
        · by_cases h1 : midIdx left rightSucc + 1 < keys.length
          · simp only [if_pos h1, if_lt_min]; exact min_le_left _ _
          · simp [if_neg h1]
      · by_cases hlt : keys.getD (midIdx left rightSucc) 0 < t
        · simp only [bsearchGo, if_pos hL, if_neg hkey, if_pos hlt, if_lt_max]
          rcases ih (midIdx left rightSucc + 1) rightSucc
            (max tp (keys.getD (midIdx left rightSucc) 0)) tn with ⟨h1, h2⟩
          exact ⟨le_trans (le_max_left _ _) h1, h2⟩
        · simp only [bsearchGo, if_pos hL, if_neg hkey, if_neg hlt, if_lt_min]
          rcases ih left (midIdx left rightSucc) tp
            (min tn (keys.getD (midIdx left rightSucc) 0)) with ⟨h1, h2⟩
          exact ⟨h1, le_trans h2 (min_le_left _ _)⟩
    · simp [bsearchGo, if_neg hL]

theorem updateClosestKeyframe_tightens (t : Int) (p : AnimProp) :
    ∀ acc : Int × Int,
      acc.1 ≤ (updateClosestKeyframe t p acc).1 ∧
        (updateClosestKeyframe t p acc).2 ≤ acc.2 := by
  intro acc
  by_cases ha : p.isAnimated
  · simp only [updateClosestKeyframe, ha, if_true]
    clear ha
    induction p.nodes generalizing acc with
    | nil => simp
    | cons ks rest ih =>
      simp only [List.foldl_cons]
      rcases ih (tightenNode t acc ks) with ⟨h1, h2⟩
      rcases bsearchGo_tightens ks t ks.length 0 ks.length acc.1 acc.2 with
        ⟨g1, g2⟩
      exact ⟨le_trans g1 h1, le_trans h2 g2⟩
  · simp [updateClosestKeyframe, ha]

theorem stepModel_tightens (t : Int) (useT useR useS : Bool)
    (acc : Int × Int) (m : FbModel) :
    acc.1 ≤ (stepModel t useT useR useS acc m).1 ∧
      (stepModel t useT useR useS acc m).2 ≤ acc.2 := by
  simp only [stepModel]
  have h1 : acc.1 ≤ (if useT then updateClosestKeyframe t m.translation acc
      else acc).1 ∧
      (if useT then updateClosestKeyframe t m.translation acc else acc).2 ≤
        acc.2 := by
    cases useT with
    | false => simp
    | true => simpa using updateClosestKeyframe_tightens t m.translation acc
  rcases h1 with ⟨h1a, h1b⟩
  have h2 : ∀ a : Int × Int,
      a.1 ≤ (if useR then updateClosestKeyframe t m.rotation a else a).1 ∧
      (if useR then updateClosestKeyframe t m.rotation a else a).2 ≤ a.2 := by
    intro a
    cases useR with
    | false => simp
    | true => simpa using updateClosestKeyframe_tightens t m.rotation a
  have h3 : ∀ a : Int × Int,
      a.1 ≤ (if useS then updateClosestKeyframe t m.scaling a else a).1 ∧
      (if useS then updateClosestKeyframe t m.scaling a else a).2 ≤ a.2 := by
    intro a
    cases useS with
    | false => simp
    | true => simpa using updateClosestKeyframe_tightens t m.scaling a
  rcases h2 _ with ⟨h2a, h2b⟩
  rcases h3 _ with ⟨h3a, h3b⟩
  exact ⟨le_trans h1a (le_trans h2a h3a), le_trans h3b (le_trans h2b h1b)⟩

theorem findLoop_tightens (t : Int) (useT useR useS : Bool) (eoP eoN : Int) :
    ∀ (ms : List FbModel) (acc : Int × Int),
      acc.1 ≤ (findLoop t useT useR useS eoP eoN ms acc).1 ∧
        (findLoop t useT useR useS eoP eoN ms acc).2 ≤ acc.2 := by
  intro ms
  induction ms with
  | nil => intro acc; simp [findLoop]
  | cons m rest ih =>
    intro acc
    rcases stepModel_tightens t useT useR useS acc m with ⟨h1, h2⟩
    by_cases hbrk : eoP ≤ (stepModel t useT useR useS acc m).1 ∧
        (stepModel t useT useR useS acc m).2 ≤ eoN
    · simp only [findLoop, if_pos hbrk]
      exact ⟨h1, h2⟩
    · simp only [findLoop, if_neg hbrk]
      rcases ih (stepModel t useT useR useS acc m) with ⟨g1, g2⟩
      exact ⟨le_trans h1 g1, le_trans g2 h2⟩

theorem findLoop_append (t : Int) (useT useR useS : Bool) (eoP eoN : Int) :
    ∀ (ms extra : List FbModel) (acc : Int × Int),
      (findLoop t useT useR useS eoP eoN ms acc).1 ≤
        (findLoop t useT useR useS eoP eoN (ms ++ extra) acc).1 ∧
      (findLoop t useT useR useS eoP eoN (ms ++ extra) acc).2 ≤
        (findLoop t useT useR useS eoP eoN ms acc).2 := by
  intro ms
  induction ms with
  | nil =>
    intro extra acc
    simpa [findLoop] using findLoop_tightens t useT useR useS eoP eoN extra acc
  | cons m rest ih =>
    intro extra acc
    by_cases hbrk : eoP ≤ (stepModel t useT useR useS acc m).1 ∧
        (stepModel t useT useR useS acc m).2 ≤ eoN
    · simp only [List.cons_append, findLoop, if_pos hbrk]
      exact ⟨le_rfl, le_rfl⟩
    · simp only [List.cons_append, findLoop, if_neg hbrk]
      exact ih extra (stepModel t useT useR useS acc m)

/-! ## Claim C1: bracket correctness of `find_nearest_keyframes` -/

/-- C1 (counterexample): with one model carrying translation keys at
0, 10, 20, playback span `[0, 20]` and current time exactly on the key
at 10, the code returns previous bound 0, not the maximum key time ≤ t
(which is 10): on an exact hit the code brackets with the strictly
adjacent keys. -/
theorem c1_counterexample :
    (findNearestKeyframes [demoM3] true true true 10 0 20 1).1 ≠
      tightenPrevClaim 0 10 (modelsKeys true true true [demoM3]) := by
  decide

/-- C1 (amended): for every model collection with time-ordered key
arrays, `find_nearest_keyframes` returns the pair of the maximum of the
span start and all key times strictly below t, and the minimum of the
span stop and all key times strictly above t, over the union of the
enabled channels' curves of a scanned initial segment of the models;
the segment is the whole collection unless the early-out thresholds
(span start + 1 frame / span stop − 1 frame) are met by the result. -/
theorem c1_bracket (models : List FbModel) (useT useR useS : Bool)
    (t a b f1 : Int) (hsort : ∀ m ∈ models, ModelSorted m) :
    ∃ k, k ≤ models.length ∧
      findNearestKeyframes models useT useR useS t a b f1 =
        (tightenPrevSpec a t (modelsKeys useT useR useS (models.take k)),
          tightenNextSpec b t (modelsKeys useT useR useS (models.take k))) ∧
      (k = models.length ∨
        (a + f1 ≤ (findNearestKeyframes models useT useR useS t a b f1).1 ∧
          (findNearestKeyframes models useT useR useS t a b f1).2 ≤ b - f1)) :=
  findNearestKeyframes_char models useT useR useS t a b f1 hsort

/-- C1 (witness): the amended bracket theorem evaluated on the concrete
single-model scene with keys 49 and 51 around current time 50. -/
theorem c1_bracket_witness :
    ∃ k, k ≤ [demoM2].length ∧
      findNearestKeyframes [demoM2] true true true 50 0 100 1 =
        (tightenPrevSpec 0 50 (modelsKeys true true true ([demoM2].take k)),
          tightenNextSpec 100 50 (modelsKeys true true true ([demoM2].take k))) ∧
      (k = [demoM2].length ∨
        (0 + 1 ≤ (findNearestKeyframes [demoM2] true true true 50 0 100 1).1 ∧
          (findNearestKeyframes [demoM2] true true true 50 0 100 1).2 ≤
            100 - 1)) :=
  c1_bracket [demoM2] true true true 50 0 100 1 (by decide)

/-! ## Claim C4: the early-out condition -/

/-- C4 (code bug): the code computes the early-out thresholds from the
playback span edges (`time_previous + 1` / `time_next - 1` evaluated at
their initial values), not from the current time as its own comment
states.  With span `[0, 100]`, current time 50, a first model keyed at
{1, 99} and a second keyed at {49, 51}, the scan stops after the first
model and returns (1, 99) — identical to scanning the first model alone
— although the strict bracket over all curves is (49, 51) and the
returned bounds are 49 frames away from the current time. -/
theorem c4_early_out_fires_far_from_current_time :
    findNearestKeyframes [demoM1, demoM2] true true true 50 0 100 1 =
        (1, 99) ∧
      findNearestKeyframes [demoM1] true true true 50 0 100 1 = (1, 99) ∧
      (tightenPrevSpec 0 50 (modelsKeys true true true [demoM1, demoM2]),
        tightenNextSpec 100 50 (modelsKeys true true true [demoM1, demoM2])) =
        (49, 51) ∧
      ¬((50 : Int) - 1 ≤ 1 ∧ 99 ≤ 50 + 1) := by
  decide

/-! ## Claim C5: bracket monotonicity -/

/-- C5 (counterexample): enlarging the model collection can widen the
bracket.  Scanning only the model keyed at {49, 51} gives previous
bound 49, but adding the model keyed at {1, 99} in front makes the
early-out fire on it first and the previous bound widens to 1. -/
theorem c5_counterexample :
    (findNearestKeyframes [demoM2] true true true 50 0 100 1).1 = 49 ∧
      (findNearestKeyframes [demoM1, demoM2] true true true 50 0 100 1).1 =
        1 ∧
      ¬((49 : Int) ≤ 1) := by
  decide

/-- C5 (amended): appending models at the end of the scan order, with
the same channel mask, never widens the bracket — the previous bound
moves later or stays equal and the next bound moves earlier or stays
equal.  (Adding models earlier in the iteration order, or enabling more
channels, can widen it because the early-out may stop the scan before
the tighter models.) -/
theorem c5_append_narrows (ms extra : List FbModel) (useT useR useS : Bool)
    (t a b f1 : Int) :
    (findNearestKeyframes ms useT useR useS t a b f1).1 ≤
      (findNearestKeyframes (ms ++ extra) useT useR useS t a b f1).1 ∧
    (findNearestKeyframes (ms ++ extra) useT useR useS t a b f1).2 ≤
      (findNearestKeyframes ms useT useR useS t a b f1).2 :=
  findLoop_append t useT useR useS (a + f1) (b - f1) ms extra (a, b)

/-! ## Claim C10: the bracket contains the current time -/

/-- C10: whenever the current time lies within the playback span and the
key arrays are time-ordered, `find_nearest_keyframes` returns a pair
with `start ≤ previous ≤ currentTime ≤ next ≤ stop` (hence
`previous ≤ next`): the bounds are only ever tightened inward from the
span edges using keys strictly below/above the current time. -/
theorem c10_bracket_bounds (models : List FbModel) (useT useR useS : Bool)
    (t a b f1 : Int) (hsort : ∀ m ∈ models, ModelSorted m)
    (hat : a ≤ t) (htb : t ≤ b) :
    a ≤ (findNearestKeyframes models useT useR useS t a b f1).1 ∧
      (findNearestKeyframes models useT useR useS t a b f1).1 ≤ t ∧
      t ≤ (findNearestKeyframes models useT useR useS t a b f1).2 ∧
      (findNearestKeyframes models useT useR useS t a b f1).2 ≤ b := by
  obtain ⟨k, _, heq, _⟩ :=
    findNearestKeyframes_char models useT useR useS t a b f1 hsort
  rw [heq]
  refine ⟨tightenPrevSpec_ge t _ a, ?_, ?_, tightenNextSpec_le t _ b⟩
  · exact tightenPrevSpec_le t _ a t hat (fun k _ hk => hk.le)
  · exact tightenNextSpec_ge t _ b t htb (fun k _ hk => hk.le)

/-- C10 (witness): the containment theorem evaluated on the concrete
two-model scene at current time 50 in span `[0, 100]`. -/
theorem c10_bracket_bounds_witness :
    (0 : Int) ≤ (findNearestKeyframes [demoM1, demoM2] true true true
        50 0 100 1).1 ∧
      (findNearestKeyframes [demoM1, demoM2] true true true 50 0 100 1).1 ≤
        50 ∧
      (50 : Int) ≤ (findNearestKeyframes [demoM1, demoM2] true true true
        50 0 100 1).2 ∧
      (findNearestKeyframes [demoM1, demoM2] true true true 50 0 100 1).2 ≤
        100 :=
  c10_bracket_bounds [demoM1, demoM2] true true true 50 0 100 1 (by decide)
    (by decide) (by decide)

/-! ## Lemmas: the scene query adapter -/

theorem unionFlatten_eq_union :
    ∀ (l : List KGTree) (s : Finset Nat),
      unionFlatten s l = s ∪ unionFlatten ∅ l := by
  intro l
  induction l with
  | nil => intro s; simp [unionFlatten]
  | cons g gs ih =>
    intro s
    simp only [unionFlatten]
    rw [ih (s ∪ (KGTree.flatten g).toFinset),
      ih (∅ ∪ (KGTree.flatten g).toFinset)]
    simp [Finset.union_assoc]

theorem parentsSel_selection :
    ∀ ps : List ParentGroup, parentsSel KeyingMode.selection ps = [] := by
  intro ps
  induction ps with
  | nil => rfl
  | cons p ps ih => simp [parentsSel, groupsOfParent, ih]

theorem parentsSel_noPull :
    ∀ ps : List ParentGroup, parentsSel KeyingMode.fullBodyNoPull ps = [] := by
  intro ps
  induction ps with
  | nil => rfl
  | cons p ps ih => simp [parentsSel, groupsOfParent, ih]

theorem parentsSel_fullBody :
    ∀ ps : List ParentGroup,
      parentsSel KeyingMode.fullBody ps = parentsFB ps := by
  intro ps
  induction ps with
  | nil => rfl
  | cons p ps ih => simp [parentsSel, groupsOfParent, parentsFB, ih]

theorem collectSelGroups_selection :
    ∀ gs : List SceneKeyingGroup,
      collectSelGroups KeyingMode.selection gs = [] := by
  intro gs
  induction gs with
  | nil => rfl
  | cons g rest ih => simp [collectSelGroups, parentsSel_selection, ih]

theorem collectSelGroups_noPull :
    ∀ gs : List SceneKeyingGroup,
      collectSelGroups KeyingMode.fullBodyNoPull gs = [] := by
  intro gs
  induction gs with
  | nil => rfl
  | cons g rest ih => simp [collectSelGroups, parentsSel_noPull, ih]

theorem collectSelGroups_fullBody :
    ∀ gs : List SceneKeyingGroup,
      collectSelGroups KeyingMode.fullBody gs = collectFullBodyGroups gs := by
  intro gs
  induction gs with
  | nil => rfl
  | cons g rest ih =>
    simp [collectSelGroups, collectFullBodyGroups, parentsSel_fullBody, ih]

/-! ## Claim C2: Selection keying mode -/

/-- C2 (counterexample): in Selection mode with selection `{1}` and one
dependency-selected keying group whose grandparent group owns model 2,
the full-body result is `{1, 2}`, not the raw selection: the grandparent
groups are collected into `full_body_groups` regardless of the keying
mode. -/
theorem c2_counterexample :
    (getActiveKeyingGroupModels {1} demoGroups KeyingMode.selection).2 ≠
      ({1} : Finset Nat) := by
  decide

/-- C2 (amended): in Selection mode the active set is exactly the raw
selection (no keying-group expansion), but the full-body set is the raw
selection unioned with the flattened grandparent groups of every keying
group whose object dependency intersects the selection. -/
theorem c2_selection_mode (selection : Finset Nat)
    (groups : List SceneKeyingGroup) :
    getActiveKeyingGroupModels selection groups KeyingMode.selection =
      (selection, selection ∪ grandparentModels groups) := by
  simp only [getActiveKeyingGroupModels, collectSelGroups_selection,
    unionFlatten, grandparentModels]
  rw [unionFlatten_eq_union]
  simp

/-! ## Claim C3: FullBody and FullBodyNoPull keying modes -/

/-- C3 (counterexample): in FullBodyNoPull mode no keying groups are
collected at all — with selection `{1}` and a grandparent group owning
model 2 the active set stays `{1}` even though the grandparent owns
model 2 (which FullBody mode does union in). -/
theorem c3_counterexample :
    (getActiveKeyingGroupModels {1} demoGroups
        KeyingMode.fullBodyNoPull).1 = ({1} : Finset Nat) ∧
      2 ∈ grandparentModels demoGroups ∧
      2 ∉ ({1} : Finset Nat) := by
  decide

/-- C3 (amended): only FullBody mode collects the grandparent (top-level)
keying groups and unions their flattened models into the active set;
under FullBodyNoPull no groups are collected and the active set is the
raw selection.  In both modes the full-body result aliases the active
set. -/
theorem c3_fullbody_modes (selection : Finset Nat)
    (groups : List SceneKeyingGroup) :
    getActiveKeyingGroupModels selection groups KeyingMode.fullBody =
        (selection ∪ grandparentModels groups,
          selection ∪ grandparentModels groups) ∧
      getActiveKeyingGroupModels selection groups KeyingMode.fullBodyNoPull =
        (selection, selection) := by
  constructor
  · simp only [getActiveKeyingGroupModels, collectSelGroups_fullBody,
      grandparentModels]
    rw [unionFlatten_eq_union]
    simp
  · simp [getActiveKeyingGroupModels, collectSelGroups_noPull, unionFlatten]

/-! ## Lemmas: the blend engine -/

theorem lerp_def (a b : Vec3) (t : ℚ) :
    lerp a b t =
      ⟨a.x + (b.x - a.x) * t, a.y + (b.y - a.y) * t,
        a.z + (b.z - a.z) * t⟩ := rfl

theorem lerp_zero (a b : Vec3) : lerp a b 0 = a := by
  cases a; cases b
  rw [lerp_def]
  simp

theorem lerp_one (a b : Vec3) : lerp a b 1 = b := by
  cases a; cases b
  rw [lerp_def]
  simp only [Vec3.mk.injEq]
  refine ⟨by ring, by ring, by ring⟩

theorem lerp_half (a b : Vec3) : lerp a b (1 / 2) = midpoint3 a b := by
  cases a; cases b
  rw [lerp_def]
  simp only [midpoint3, Vec3.mk.injEq]
  refine ⟨by ring, by ring, by ring⟩

theorem writeTranslation_ne (sc : Scene) (m k : Nat) (v : Vec3)
    (h : k ≠ m) : writeTranslation sc m v k = sc k := by
  simp [writeTranslation, h]

theorem writeRotation_ne (sc : Scene) (m k : Nat) (v : Vec3) (h : k ≠ m) :
    writeRotation sc m v k = sc k := by
  simp [writeRotation, h]

theorem writeScaling_ne (sc : Scene) (m k : Nat) (v : Vec3) (h : k ≠ m) :
    writeScaling sc m v k = sc k := by
  simp [writeScaling, h]

theorem applyInbetweenStep_ne (host : HostRotation) (qi : Nat → Bool)
    (A B : Pose) (r : ℚ) (useT useR useS : Bool) (sc : Scene) (m k : Nat)
    (h : k ≠ m) :
    applyInbetweenStep host qi A B r useT useR useS sc m k = sc k := by
  simp only [applyInbetweenStep]
  cases useT <;> cases useR <;> cases useS <;>
    by_cases hq : qi m <;>
    simp [hq, writeTranslation_ne _ _ _ _ h, writeRotation_ne _ _ _ _ h,
      writeScaling_ne _ _ _ _ h]

theorem applyInbetweenStep_at (host : HostRotation) (qi : Nat → Bool)
    (A B : Pose) (r : ℚ) (sc : Scene) (m : Nat) :
    applyInbetweenStep host qi A B r true true true sc m m =
      blendTarget host qi A B r m := by
  by_cases hq : qi m <;>
    simp [applyInbetweenStep, blendTarget, hq, writeTranslation,
      writeRotation, writeScaling]

theorem applyInbetweenPose_not_mem (host : HostRotation) (qi : Nat → Bool)
    (A B : Pose) (r : ℚ) (useT useR useS : Bool) :
    ∀ (ms : List Nat) (sc : Scene) (m : Nat), m ∉ ms →
      applyInbetweenPose host qi ms A B r useT useR useS sc m = sc m := by
  intro ms
  induction ms with
  | nil => intro sc m _; rfl
  | cons m' rest ih =>
    intro sc m hm
    have hm1 : m ≠ m' := fun h => hm (h ▸ List.mem_cons_self m' rest)
    have hm2 : m ∉ rest := fun h => hm (List.mem_cons_of_mem m' h)
    have hstep : applyInbetweenPose host qi (m' :: rest) A B r useT useR useS
        sc m =
        applyInbetweenPose host qi rest A B r useT useR useS
          (applyInbetweenStep host qi A B r useT useR useS sc m') m := rfl
    rw [hstep, ih _ m hm2]
    exact applyInbetweenStep_ne host qi A B r useT useR useS sc m' m hm1

theorem applyInbetweenPose_at_mem (host : HostRotation) (qi : Nat → Bool)
    (A B : Pose) (r : ℚ) :
    ∀ (ms : List Nat) (sc : Scene) (m : Nat), m ∈ ms →
      applyInbetweenPose host qi ms A B r true true true sc m =
        blendTarget host qi A B r m := by
  intro ms
  induction ms with
  | nil => intro sc m hm; simp at hm
  | cons m' rest ih =>
    intro sc m hm
    have hstep : ∀ s0 : Scene, applyInbetweenPose host qi (m' :: rest) A B r
        true true true s0 m =
        applyInbetweenPose host qi rest A B r true true true
          (applyInbetweenStep host qi A B r true true true s0 m') m :=
      fun s0 => rfl
    by_cases hrest : m ∈ rest
    · rw [hstep sc]
      exact ih _ m hrest
    · have hm1 : m = m' := by
        rcases List.mem_cons.mp hm with h | h
        · exact h
        · exact absurd h hrest
      subst hm1
      rw [hstep sc,
        applyInbetweenPose_not_mem host qi A B r true true true rest _ m
          hrest]
      exact applyInbetweenStep_at host qi A B r sc m

theorem applyPose_ne (pose : Pose) (sc : Scene) (m k : Nat) (h : k ≠ m) :
    writeScaling
        (writeRotation (writeTranslation sc m (pose m).translation) m
          (pose m).rotation)
        m (pose m).scaling k = sc k := by
  rw [writeScaling_ne _ _ _ _ h, writeRotation_ne _ _ _ _ h,
    writeTranslation_ne _ _ _ _ h]

theorem applyPose_not_mem (pose : Pose) :
    ∀ (ms : List Nat) (sc : Scene) (m : Nat), m ∉ ms →
      applyPose ms pose sc m = sc m := by
  intro ms
  induction ms with
  | nil => intro sc m _; rfl
  | cons m' rest ih =>
    intro sc m hm
    have hm1 : m ≠ m' := fun h => hm (h ▸ List.mem_cons_self m' rest)
    have hm2 : m ∉ rest := fun h => hm (List.mem_cons_of_mem m' h)
    have hstep : applyPose (m' :: rest) pose sc m =
        applyPose rest pose
          (writeScaling
            (writeRotation (writeTranslation sc m' (pose m').translation) m'
              (pose m').rotation)
            m' (pose m').scaling) m := rfl
    rw [hstep, ih _ m hm2]
    exact applyPose_ne pose sc m' m hm1

theorem applyPose_at_mem (pose : Pose) :
    ∀ (ms : List Nat) (sc : Scene) (m : Nat), m ∈ ms →
      applyPose ms pose sc m = poseTRS pose m := by
  intro ms
  induction ms with
  | nil => intro sc m hm; simp at hm
  | cons m' rest ih =>
    intro sc m hm
    have hstep : ∀ s0 : Scene, applyPose (m' :: rest) pose s0 m =
        applyPose rest pose
          (writeScaling
            (writeRotation (writeTranslation s0 m' (pose m').translation) m'
              (pose m').rotation)
            m' (pose m').scaling) m :=
      fun s0 => rfl
    by_cases hrest : m ∈ rest
    · rw [hstep sc]
      exact ih _ m hrest
    · have hm1 : m = m' := by
        rcases List.mem_cons.mp hm with h | h
        · exact h
        · exact absurd h hrest
      subst hm1
      rw [hstep sc, applyPose_not_mem pose rest _ m hrest]
      simp [poseTRS, writeScaling, writeRotation, writeTranslation]

theorem demoHost_interp4_zero (a b : Vec4) : demoHost.interpRot4 a b 0 = a := by
  cases a; cases b
  simp [demoHost]

theorem demoHost_interp4_one (a b : Vec4) : demoHost.interpRot4 a b 1 = b := by
  cases a; cases b
  simp only [demoHost, Vec4.mk.injEq]
  refine ⟨by ring, by ring, by ring, by ring⟩

theorem demoHost_roundtrip (v : Vec3) :
    demoHost.quatToRot (demoHost.rotToQuat v) = v := by
  cases v
  rfl

/-! ## Claim C8: blend endpoint identity -/

/-- C8: for poses A and B (with the models drawn from both poses' shared
key set, here realized as total maps) and the full channel mask,
`apply_inbetween_pose` at ratio 0 writes exactly A's translation and
scaling (bit-for-bit in the exact arithmetic of the model) and a
rotation angularly equivalent to A's (`eqAng` is any reflexive relation
under which the host's quaternion round-trip is equivalent, and the host
interpolation primitive is endpoint-exact); at ratio 1 the same holds
for B. -/
theorem c8_blend_endpoints (host : HostRotation) (qi : Nat → Bool)
    (models : List Nat) (A B : Pose) (sc : Scene)
    (eqAng : Vec3 → Vec3 → Prop) (m : Nat) (hm : m ∈ models)
    (h30 : ∀ a b : Vec3, host.interpRot3 a b 0 = a)
    (h31 : ∀ a b : Vec3, host.interpRot3 a b 1 = b)
    (h40 : ∀ a b : Vec4, host.interpRot4 a b 0 = a)
    (h41 : ∀ a b : Vec4, host.interpRot4 a b 1 = b)
    (hAq : (A m).quaternion = host.rotToQuat ((A m).rotation))
    (hBq : (B m).quaternion = host.rotToQuat ((B m).rotation))
    (hrefl : ∀ v, eqAng v v)
    (hrt : ∀ v, eqAng (host.quatToRot (host.rotToQuat v)) v) :
    ((applyInbetweenPose host qi models A B 0 true true true sc m).translation
        = (A m).translation ∧
      (applyInbetweenPose host qi models A B 0 true true true sc m).scaling
        = (A m).scaling ∧
      eqAng
        (applyInbetweenPose host qi models A B 0 true true true sc m).rotation
        ((A m).rotation)) ∧
    ((applyInbetweenPose host qi models A B 1 true true true sc m).translation
        = (B m).translation ∧
      (applyInbetweenPose host qi models A B 1 true true true sc m).scaling
        = (B m).scaling ∧
      eqAng
        (applyInbetweenPose host qi models A B 1 true true true sc m).rotation
        ((B m).rotation)) := by
  rw [applyInbetweenPose_at_mem host qi A B 0 models sc m hm,
    applyInbetweenPose_at_mem host qi A B 1 models sc m hm]
  refine ⟨⟨?_, ?_, ?_⟩, ⟨?_, ?_, ?_⟩⟩
  · simp [blendTarget, lerp_zero]
  · simp [blendTarget, lerp_zero]
  · by_cases hq : qi m
    · simp only [blendTarget, hq, if_true, h40, hAq]
      exact hrt _
    · simp only [blendTarget, hq, if_false, h30]
      exact hrefl _
  · simp [blendTarget, lerp_one]
  · simp [blendTarget, lerp_one]
  · by_cases hq : qi m
    · simp only [blendTarget, hq, if_true, h41, hBq]
      exact hrt _
    · simp only [blendTarget, hq, if_false, h31]
      exact hrefl _

/-- C8 (witness): the endpoint theorem evaluated with the concrete
linear-interpolation host, quaternion interpolation enabled, and the
concrete poses. -/
theorem c8_blend_endpoints_witness :
    ((applyInbetweenPose demoHost (fun _ => true) [0] demoPoseA demoPoseB 0
          true true true (demoSceneAt 0) 0).translation
        = (demoPoseA 0).translation ∧
      (applyInbetweenPose demoHost (fun _ => true) [0] demoPoseA demoPoseB 0
          true true true (demoSceneAt 0) 0).scaling
        = (demoPoseA 0).scaling ∧
      (applyInbetweenPose demoHost (fun _ => true) [0] demoPoseA demoPoseB 0
          true true true (demoSceneAt 0) 0).rotation
        = (demoPoseA 0).rotation) ∧
    ((applyInbetweenPose demoHost (fun _ => true) [0] demoPoseA demoPoseB 1
          true true true (demoSceneAt 0) 0).translation
        = (demoPoseB 0).translation ∧
      (applyInbetweenPose demoHost (fun _ => true) [0] demoPoseA demoPoseB 1
          true true true (demoSceneAt 0) 0).scaling
        = (demoPoseB 0).scaling ∧
      (applyInbetweenPose demoHost (fun _ => true) [0] demoPoseA demoPoseB 1
          true true true (demoSceneAt 0) 0).rotation
        = (demoPoseB 0).rotation) :=
  c8_blend_endpoints demoHost (fun _ => true) [0] demoPoseA demoPoseB
    (demoSceneAt 0) Eq 0 (by decide)
    (fun a b => lerp_zero a b) (fun a b => lerp_one a b)
    demoHost_interp4_zero demoHost_interp4_one rfl rfl
    (fun v => rfl) demoHost_roundtrip

/-! ## Claim C9: AbsoluteBlend remap identity -/

/-- C9: with blend-from-current off and both bracket poses present, the
session dispatch remaps the slider ratio by `(ratio + 1) / 2` and blends
previous → next: ratio −1 writes exactly the previous pose's translation
and scaling (rotation angularly equivalent under the endpoint-exactness
hypotheses on the host primitives), ratio +1 the next pose's, and
ratio 0 the componentwise midpoint on translation and scaling. -/
theorem c9_absolute_blend (host : HostRotation) (qi : Nat → Bool)
    (models : List Nat) (A B : Pose) (cur : Option Pose) (sc : Scene)
    (eqAng : Vec3 → Vec3 → Prop) (m : Nat) (hm : m ∈ models)
    (h30 : ∀ a b : Vec3, host.interpRot3 a b 0 = a)
    (h31 : ∀ a b : Vec3, host.interpRot3 a b 1 = b)
    (h40 : ∀ a b : Vec4, host.interpRot4 a b 0 = a)
    (h41 : ∀ a b : Vec4, host.interpRot4 a b 1 = b)
    (hAq : (A m).quaternion = host.rotToQuat ((A m).rotation))
    (hBq : (B m).quaternion = host.rotToQuat ((B m).rotation))
    (hrefl : ∀ v, eqAng v v)
    (hrt : ∀ v, eqAng (host.quatToRot (host.rotToQuat v)) v) :
    ((applyInbetweenValue host qi models false cur (some A) (some B) (-1)
          true true true sc m).translation = (A m).translation ∧
      (applyInbetweenValue host qi models false cur (some A) (some B) (-1)
          true true true sc m).scaling = (A m).scaling ∧
      eqAng
        (applyInbetweenValue host qi models false cur (some A) (some B) (-1)
          true true true sc m).rotation ((A m).rotation)) ∧
    ((applyInbetweenValue host qi models false cur (some A) (some B) 1
          true true true sc m).translation = (B m).translation ∧
      (applyInbetweenValue host qi models false cur (some A) (some B) 1
          true true true sc m).scaling = (B m).scaling ∧
      eqAng
        (applyInbetweenValue host qi models false cur (some A) (some B) 1
          true true true sc m).rotation ((B m).rotation)) ∧
    ((applyInbetweenValue host qi models false cur (some A) (some B) 0
          true true true sc m).translation =
        midpoint3 ((A m).translation) ((B m).translation) ∧
      (applyInbetweenValue host qi models false cur (some A) (some B) 0
          true true true sc m).scaling =
        midpoint3 ((A m).scaling) ((B m).scaling)) := by
  have hval : ∀ v : ℚ,
      applyInbetweenValue host qi models false cur (some A) (some B) v
        true true true sc =
      applyInbetweenPose host qi models A B ((v + 1) / 2) true true true sc :=
    fun v => rfl
  have hm1 : ((-1 : ℚ) + 1) / 2 = 0 := by norm_num
  have hp1 : ((1 : ℚ) + 1) / 2 = 1 := by norm_num
  have h0 : ((0 : ℚ) + 1) / 2 = 1 / 2 := by norm_num
  rw [hval (-1), hval 1, hval 0, hm1, hp1, h0,
    applyInbetweenPose_at_mem host qi A B 0 models sc m hm,
    applyInbetweenPose_at_mem host qi A B 1 models sc m hm,
    applyInbetweenPose_at_mem host qi A B (1 / 2) models sc m hm]
  refine ⟨⟨?_, ?_, ?_⟩, ⟨?_, ?_, ?_⟩, ⟨?_, ?_⟩⟩
  · simp [blendTarget, lerp_zero]
  · simp [blendTarget, lerp_zero]
  · by_cases hq : qi m
    · simp only [blendTarget, hq, if_true, h40, hAq]
      exact hrt _
    · simp only [blendTarget, hq, if_false, h30]
      exact hrefl _
  · simp [blendTarget, lerp_one]
  · simp [blendTarget, lerp_one]
  · by_cases hq : qi m
    · simp only [blendTarget, hq, if_true, h41, hBq]
      exact hrt _
    · simp only [blendTarget, hq, if_false, h31]
      exact hrefl _
  · simp only [blendTarget]
    rw [lerp_half]
  · simp only [blendTarget]
    rw [lerp_half]

/-- C9 (witness): the remap theorem evaluated with the concrete host and
poses. -/
theorem c9_absolute_blend_witness :
    ((applyInbetweenValue demoHost (fun _ => true) [0] false none
          (some demoPoseA) (some demoPoseB) (-1) true true true
          (demoSceneAt 0) 0).translation = (demoPoseA 0).translation ∧
      (applyInbetweenValue demoHost (fun _ => true) [0] false none
          (some demoPoseA) (some demoPoseB) (-1) true true true
          (demoSceneAt 0) 0).scaling = (demoPoseA 0).scaling ∧
      (applyInbetweenValue demoHost (fun _ => true) [0] false none
          (some demoPoseA) (some demoPoseB) (-1) true true true
          (demoSceneAt 0) 0).rotation = (demoPoseA 0).rotation) ∧
    ((applyInbetweenValue demoHost (fun _ => true) [0] false none
          (some demoPoseA) (some demoPoseB) 1 true true true
          (demoSceneAt 0) 0).translation = (demoPoseB 0).translation ∧
      (applyInbetweenValue demoHost (fun _ => true) [0] false none
          (some demoPoseA) (some demoPoseB) 1 true true true
          (demoSceneAt 0) 0).scaling = (demoPoseB 0).scaling ∧
      (applyInbetweenValue demoHost (fun _ => true) [0] false none
          (some demoPoseA) (some demoPoseB) 1 true true true
          (demoSceneAt 0) 0).rotation = (demoPoseB 0).rotation) ∧
    ((applyInbetweenValue demoHost (fun _ => true) [0] false none
          (some demoPoseA) (some demoPoseB) 0 true true true
          (demoSceneAt 0) 0).translation =
        midpoint3 ((demoPoseA 0).translation) ((demoPoseB 0).translation) ∧
      (applyInbetweenValue demoHost (fun _ => true) [0] false none
          (some demoPoseA) (some demoPoseB) 0 true true true
          (demoSceneAt 0) 0).scaling =
        midpoint3 ((demoPoseA 0).scaling) ((demoPoseB 0).scaling)) :=
  c9_absolute_blend demoHost (fun _ => true) [0] demoPoseA demoPoseB none
    (demoSceneAt 0) Eq 0 (by decide)
    (fun a b => lerp_zero a b) (fun a b => lerp_one a b)
    demoHost_interp4_zero demoHost_interp4_one rfl rfl
    (fun v => rfl) demoHost_roundtrip

/-! ## Lemmas: the overlay session always faults at start -/

theorem overlayInit_raises (P : OverlayParams) (bfc uT uR uS : Bool) :
    overlayInit P bfc uT uR uS =
      Except.error SessionError.attributeError := rfl

theorem overlayReach_empty (P : OverlayParams) :
    ∀ s, OverlayReach P s → False := by
  intro s h
  induction h with
  | init bfc uT uR uS s hinit =>
    rw [overlayInit_raises] at hinit
    exact Except.noConfusion hinit
  | update s v hs ih => exact ih
  | toggle s s' c hs ht ih => exact ih

/-! ## Claim C6: pose key-set invariant -/

/-- C6 (code bug): the capture that would establish the pose key-set
invariant never happens.  On a fresh session `prev_pose_time` is `None`,
so the very first `cache_nearest_poses` takes the times-changed branch
and evaluates `pose_inbetween.SetTimeCtx` — an attribute the module
does not define (it defines `set_time_ctx`) — raising `AttributeError`
before `prev_pose`/`next_pose` are ever assigned.  Evaluated on the
concrete session parameters: the initial cache call errors and session
construction errors. -/
theorem c6_initial_capture_raises :
    overlayCacheNearestPoses demoP
        (overlayBaseState demoP true true true false) =
      Except.error SessionError.attributeError ∧
    overlayInit demoP true true true false =
      Except.error SessionError.attributeError := by
  constructor
  · rfl
  · rfl

/-! ## Claim C7: session cancel atomicity -/

/-- C7 (code bug): no session ever starts, so the cancel path is
unreachable.  `__init__` calls `start_editing`, whose
`cache_nearest_poses` raises `AttributeError` (undefined
`pose_inbetween.SetTimeCtx`, actionscript.py line 261) before
`TransactionBegin` runs; the base state still has the undo transaction
unopened when the session is discarded, and no reachable state exists
for `cancel` to act on. -/
theorem c7_session_start_raises :
    overlayInit demoP true true true false =
        Except.error SessionError.attributeError ∧
      (overlayBaseState demoP true true true false).undoOpen = false := by
  constructor
  · rfl
  · rfl

end Inbetweener
